import Mathlib

/-!
Verification of the vector semantic-search and tag-inference core of
`mcp-local-context-memory`.

The development shallowly embeds the Python source:

* `src/modules/embeddings.py` — vector codec (`to_blob` / `from_blob`),
  similarity ranking (`rank`) and tag suggestion (`suggest_tags`);
* `src/modules/knowledge.py` — per-tag centroid computation
  (`_compute_tag_centroids`), note storage and deletion (`store_note`,
  `delete_note`) and semantic search (`search_notes`);
* `src/ui/main.py` — the top-k similarity graph builder (`get_graph`).

Modelling conventions:

* IEEE-754 single-precision floats in the codec are modelled by their
  32-bit patterns (`Nat < 2^32`); a blob is the list of their bytes in
  little-endian order, exactly as `struct.pack`/`struct.unpack` with
  format `"{n}f"` lay them out.  `struct.error` (the spec's
  `MalformedBlob`) is modelled by `Option.none`.
* Float arithmetic that only uses field operations and order comparisons
  (dot products, thresholds, sort keys) is modelled over `ℚ`; the square
  root in centroid L2-normalisation forces that one component over `ℝ`.
* Python's `sorted` / `list.sort` is a stable sort; it is modelled by
  `List.mergeSort`, which is proved stable in core Lean.  Sorting a list
  descending by score with `key=lambda x: -x[1]` (or
  `key=lambda x: x[1], reverse=True`, which also keeps ties in input
  order) corresponds to `mergeSort` with `le a b := b.2 ≤ a.2`.
* Python dicts iterate in insertion order; they are modelled as
  association lists.
-/

/-! ## Vector codec (`src/modules/embeddings.py`, `to_blob` / `from_blob`) -/

/-- Little-endian byte decomposition of one 32-bit float pattern, as
`struct.pack` emits it for one `"f"` item. -/
def bytesOfFloat32 (w : Nat) : List Nat :=
  [w % 256, w / 256 % 256, w / 256 ^ 2 % 256, w / 256 ^ 3 % 256]

/-- Recomposition of one 32-bit float pattern from four little-endian
bytes, as `struct.unpack` reads one `"f"` item. -/
def float32OfBytes (b0 b1 b2 b3 : Nat) : Nat :=
  b0 + 256 * b1 + 256 ^ 2 * b2 + 256 ^ 3 * b3

/-- `to_blob(vec)`: `struct.pack(f"{len(vec)}f", *vec)` — each vector
component packed as a 4-byte little-endian single-precision float, in
order. -/
def to_blob (vec : List Nat) : List Nat :=
  (vec.map bytesOfFloat32).flatten

/-- `from_blob(blob)`: `struct.unpack(f"{len(blob)//4}f", blob)`.
`struct.unpack` demands that the buffer length equal exactly
`4 * (len(blob) // 4)`, so it raises `struct.error` (the spec's
`MalformedBlob`) precisely when the length is not a multiple of 4;
that failure is modelled by `none`. -/
def from_blob : List Nat → Option (List Nat)
  | [] => some []
  | b0 :: b1 :: b2 :: b3 :: rest =>
      (from_blob rest).map (fun v => float32OfBytes b0 b1 b2 b3 :: v)
  | _ => none

/-! ## Similarity ranking and tag suggestion
(`src/modules/embeddings.py`, `rank` / `suggest_tags`) -/

/-- Dot product of two vectors, as `np.dot` / `matrix @ q` computes it
componentwise. -/
def dot (u v : List ℚ) : ℚ := (List.zipWith (fun a b => a * b) u v).sum

/-- Comparator for Python's stable descending sort by score
(`key=lambda x: x[1], reverse=True` in `rank`, `key=lambda x: -x[1]` in
`suggest_tags` and the graph builder): `a` may stay before `b` iff
`b`'s key is ≤ `a`'s key. -/
def descBy {α : Type} (key : α → ℚ) (a b : α) : Bool := decide (key b ≤ key a)

/-- `zip(keys, scores)` in `rank`: each candidate key paired with its
dot-product score against the query, in candidate order. -/
def scoredCandidates (query_vec : List ℚ) (candidates : List (String × List ℚ)) :
    List (String × ℚ) :=
  candidates.map (fun c => (c.1, dot query_vec c.2))

/-- `rank(query_vec, candidates)`: returns `[]` on an empty candidate
list, otherwise the scored candidates sorted by descending score with
Python's stable `sorted(..., key=lambda x: x[1], reverse=True)`
(`reverse=True` keeps ties in input order). -/
def rank (query_vec : List ℚ) (candidates : List (String × List ℚ)) :
    List (String × ℚ) :=
  match candidates with
  | [] => []
  | _ => (scoredCandidates query_vec candidates).mergeSort (descBy Prod.snd)

/-- Auto-tagging threshold constant `AUTO_TAG_THRESHOLD = 0.45`. -/
def AUTO_TAG_THRESHOLD : ℚ := 45 / 100

/-- Auto-tagging truncation constant `AUTO_TAG_MAX = 5`. -/
def AUTO_TAG_MAX : Nat := 5

/-- Auto-tagging skip set `AUTO_TAG_SKIP = {"conversation", "context"}`. -/
def AUTO_TAG_SKIP : List String := ["conversation", "context"]

/-- The `scored` comprehension in `suggest_tags`: `(tag, score)` pairs,
keeping only centroids whose dot-product score is `>= threshold`, in
centroid-map (insertion) order. -/
def scoredTags (note_vec : List ℚ) (tag_centroids : List (String × List ℚ))
    (threshold : ℚ) : List (String × ℚ) :=
  (tag_centroids.filter (fun tc => decide (threshold ≤ dot note_vec tc.2))).map
    (fun tc => (tc.1, dot note_vec tc.2))

/-- `suggest_tags(note_vec, tag_centroids, threshold, max_tags)`: returns
`[]` on an empty centroid map, otherwise filters by threshold, sorts
descending by score with the stable `scored.sort(key=lambda x: -x[1])`,
truncates to `max_tags` and keeps the tags.  The Python defaults are
`AUTO_TAG_THRESHOLD` and `AUTO_TAG_MAX`. -/
def suggest_tags (note_vec : List ℚ) (tag_centroids : List (String × List ℚ))
    (threshold : ℚ) (max_tags : Nat) : List String :=
  match tag_centroids with
  | [] => []
  | _ =>
      (((scoredTags note_vec tag_centroids threshold).mergeSort (descBy Prod.snd)).take
        max_tags).map Prod.fst

/-- The sorted `scored` list inside `suggest_tags`, before truncation. -/
def sortedScoredTags (note_vec : List ℚ) (tag_centroids : List (String × List ℚ))
    (threshold : ℚ) : List (String × ℚ) :=
  (scoredTags note_vec tag_centroids threshold).mergeSort (descBy Prod.snd)

/-! ## Similarity graph builder (`src/ui/main.py`, `get_graph`)

The builder works on the pairwise score matrix
`sims = cosine_similarity(embeddings)`; the edge-selection logic never
inspects how the scores were produced, so the matrix is a parameter
`sims : Nat → Nat → ℚ` of the model.  The hard-coded fan-out
`scores[:3]` is kept as the constant `GRAPH_TOP_K` and generalised to a
parameter `k`. -/

/-- One entry of the `links` list: `{"source": i, "target": j,
"similarity": sim}`. -/
structure Link where
  source : Nat
  target : Nat
  similarity : ℚ
deriving DecidableEq

/-- Canonical form of an unordered pair: `(min(i, j), max(i, j))`. -/
def canonEdge (i j : Nat) : Nat × Nat := (Nat.min i j, Nat.max i j)

/-- Canonical unordered pair of a link's endpoints. -/
def canonL (l : Link) : Nat × Nat := canonEdge l.source l.target

/-- The per-node score list
`[(j, sims[i][j]) for j in range(len(keys)) if j != i]`. -/
def nodeCands (n : Nat) (sims : Nat → Nat → ℚ) (i : Nat) : List (Nat × ℚ) :=
  ((List.range n).filter (fun j => decide (j ≠ i))).map (fun j => (j, sims i j))

/-- The per-node score list after the stable
`scores.sort(key=lambda x: -x[1])`. -/
def sortedCands (n : Nat) (sims : Nat → Nat → ℚ) (i : Nat) : List (Nat × ℚ) :=
  (nodeCands n sims i).mergeSort (descBy Prod.snd)

/-- `scores[:k]` — node `i`'s top-`k` neighbours (`k = 3` in the code). -/
def nodePicks (n : Nat) (sims : Nat → Nat → ℚ) (k : Nat) (i : Nat) : List (Nat × ℚ) :=
  (sortedCands n sims i).take k

/-- The inner loop `for j, sim in scores[:3]`: canonicalize the edge,
skip it if already seen, otherwise record it in `seen` and append the
link with this direction's score. -/
def stepNode (i : Nat) : List (Nat × ℚ) → List (Nat × Nat) → List Link →
    List (Nat × Nat) × List Link
  | [], seen, links => (seen, links)
  | (j, s) :: ps, seen, links =>
      if canonEdge i j ∈ seen then stepNode i ps seen links
      else stepNode i ps (seen ++ [canonEdge i j]) (links ++ [⟨i, j, s⟩])

/-- The outer loop `for i in range(len(keys))`, processing nodes in
ascending input order and threading the `seen` set and `links` list. -/
def buildLinks (picks : Nat → List (Nat × ℚ)) :
    List Nat → List (Nat × Nat) → List Link → List (Nat × Nat) × List Link
  | [], seen, links => (seen, links)
  | i :: rest, seen, links =>
      let st := stepNode i (picks i) seen links
      buildLinks picks rest st.1 st.2

/-- The hard-coded top-3 fan-out of `scores[:3]`. -/
def GRAPH_TOP_K : Nat := 3

/-- The full `links` list of one graph build over `n` records. -/
def graphLinks (n : Nat) (sims : Nat → Nat → ℚ) (k : Nat) : List Link :=
  (buildLinks (nodePicks n sims k) (List.range n) [] []).2

/-- `get_graph`: fewer than 2 records short-circuits to the empty graph
`{"nodes": [], "links": []}`; otherwise every record becomes a node and
the links come from the top-`k` selection with dedup.  Node metadata
(titles, snippets, body lengths) is irrelevant to the claims and elided;
a node is represented by its record key. -/
def get_graph (keys : List String) (sims : Nat → Nat → ℚ) (k : Nat) :
    List String × List Link :=
  if keys.length < 2 then ([], [])
  else (keys, graphLinks keys.length sims k)

/-! ## Note storage (`src/modules/knowledge.py` and `src/db.py`)

The SQLite tables `notes` and `note_embeddings` are modelled as
association lists keyed by the primary-key column `key`.  By the codec
round-trip law the `embedding` BLOB column is represented by the vector
it encodes.  `db.connect()` commits the whole `with` block at once (and
rolls back on exception), so the statements inside one block form one
transaction and are modelled as a single state transition. -/

/-- A row of the `notes` table (minus its key); `tags` holds the decoded
form of the `tags` JSON column. -/
structure NoteRow where
  body : String
  tags : List String
  created_at : String
  updated_at : String
deriving DecidableEq

/-- The persistent state: the `notes` and `note_embeddings` tables. -/
structure KBState where
  notes : List (String × NoteRow)
  embeddings : List (String × List ℚ)
deriving DecidableEq

/-- Lookup by primary key in an association-list table. -/
def alookup {β : Type} : List (String × β) → String → Option β
  | [], _ => none
  | (k, v) :: rest, key => if k = key then some v else alookup rest key

/-- `INSERT INTO notes ... ON CONFLICT(key) DO UPDATE SET body, tags,
updated_at = datetime('now')`: an existing row keeps its position and
`created_at`; a new row is appended with both timestamps set to `now`. -/
def upsertNote : List (String × NoteRow) → String → String → List String → String →
    List (String × NoteRow)
  | [], key, body, tags, now => [(key, ⟨body, tags, now, now⟩)]
  | (k, r) :: rest, key, body, tags, now =>
      if k = key then (k, ⟨body, tags, r.created_at, now⟩) :: rest
      else (k, r) :: upsertNote rest key body tags now

/-- `INSERT INTO note_embeddings ... ON CONFLICT(key) DO UPDATE SET
embedding = excluded.embedding`. -/
def upsertEmbedding : List (String × List ℚ) → String → List ℚ →
    List (String × List ℚ)
  | [], key, vec => [(key, vec)]
  | (k, v) :: rest, key, vec =>
      if k = key then (k, vec) :: rest
      else (k, v) :: upsertEmbedding rest key vec

/-- `store_note(key, body, tags)`, write phase (lines 107–127): both
upserts run inside a single `db.connect()` transaction, modelled as one
state transition.  The embedding vector `vec = encode(body)` comes from
the external encoder and `tag_list` from `_normalize_tags` or the
auto-suggestion path (lines 97–105); both only determine stored values,
never which rows are written, so they enter as parameters. -/
def store_note (s : KBState) (key body : String) (tag_list : List String)
    (vec : List ℚ) (now : String) : KBState :=
  ⟨upsertNote s.notes key body tag_list now, upsertEmbedding s.embeddings key vec⟩

/-- `delete_note(key)`: `DELETE FROM notes WHERE key = ?` and
`DELETE FROM note_embeddings WHERE key = ?` in one transaction; the
boolean is `rowcount > 0` (whether a note row existed). -/
def delete_note (s : KBState) (key : String) : KBState × Bool :=
  (⟨s.notes.filter (fun kv => decide (kv.1 ≠ key)),
      s.embeddings.filter (fun kv => decide (kv.1 ≠ key))⟩,
    s.notes.any (fun kv => decide (kv.1 = key)))

/-- No orphaned vectors: every stored embedding belongs to a stored
note. -/
def orphanFree (s : KBState) : Prop :=
  ∀ k, alookup s.notes k = none → alookup s.embeddings k = none

/-- `search_notes(query)`, semantic branch: rank all stored embeddings
against the query vector (`query_vec = encode(query)` comes from the
external encoder and enters as a parameter), keep the keys of the first
10 ranked pairs (`ranked[:10]`), fetch those notes by key and return
them in rank order, skipping keys without a note row
(`[notes_by_key[k] for k in top_keys if k in notes_by_key]`). -/
def search_notes_semantic (s : KBState) (query_vec : List ℚ) :
    List (String × NoteRow) :=
  (((rank query_vec s.embeddings).take 10).map Prod.fst).filterMap
    (fun k => (alookup s.notes k).map (fun r => (k, r)))

/-! ## Per-tag centroids (`src/modules/knowledge.py`,
`_compute_tag_centroids`)

The rows of the `SELECT n.tags, e.embedding FROM notes n JOIN
note_embeddings e` query enter as a list of `(tags, vector)` pairs and
the skip set `AUTO_TAG_SKIP` as a parameter.  Components live in `ℝ`
because L2-normalisation divides by a square root. -/

noncomputable section

/-- Componentwise sum of the member vectors (the summation inside
`np.array(vecs).mean(axis=0)`). -/
def sumVecs : List (List ℝ) → List ℝ
  | [] => []
  | [v] => v
  | v :: w :: rest => List.zipWith (fun a b => a + b) v (sumVecs (w :: rest))

/-- `np.array(vecs).mean(axis=0)` — componentwise mean. -/
def meanVec (vs : List (List ℝ)) : List ℝ :=
  (sumVecs vs).map (fun x => x / (vs.length : ℝ))

/-- `float(np.linalg.norm(mean))` — the L2 norm. -/
def l2norm (v : List ℝ) : ℝ := Real.sqrt ((v.map (fun x => x * x)).sum)

/-- `if norm > 0: mean = mean / norm` — L2-normalise unless the norm is
zero, in which case the mean is emitted un-normalised. -/
def normalizeIfPos (m : List ℝ) : List ℝ :=
  if 0 < l2norm m then m.map (fun x => x / l2norm m) else m

/-- `tag_vecs.setdefault(tag, []).append(vec)` on an insertion-ordered
dict. -/
def addTagVec : List (String × List (List ℝ)) → String → List ℝ →
    List (String × List (List ℝ))
  | [], tag, v => [(tag, [v])]
  | (t, vs) :: rest, tag, v =>
      if t = tag then (t, vs ++ [v]) :: rest
      else (t, vs) :: addTagVec rest tag v

/-- The inner loop `for tag in tags`: skip tags in the skip set,
otherwise append this row's vector to the tag's bucket. -/
def collectRowTags (skip : List String) (vec : List ℝ) :
    List String → List (String × List (List ℝ)) → List (String × List (List ℝ))
  | [], acc => acc
  | tag :: ts, acc =>
      if tag ∈ skip then collectRowTags skip vec ts acc
      else collectRowTags skip vec ts (addTagVec acc tag vec)

/-- The outer loop `for r in rows`, building `tag_vecs`. -/
def tagVecs (skip : List String) :
    List (List String × List ℝ) → List (String × List (List ℝ)) →
    List (String × List (List ℝ))
  | [], acc => acc
  | row :: rest, acc => tagVecs skip rest (collectRowTags skip row.2 row.1 acc)

/-- `_compute_tag_centroids()`: collect per-tag member vectors from the
joined rows (skipping `AUTO_TAG_SKIP` tags), then map each tag to the
L2-normalised mean of its bucket (un-normalised when the norm is not
positive). -/
def compute_tag_centroids (rows : List (List String × List ℝ))
    (skip : List String) : List (String × List ℝ) :=
  (tagVecs skip rows []).map (fun tv => (tv.1, normalizeIfPos (meanVec tv.2)))

/-- The member vectors of a tag: the vectors of the rows whose tag list
contains the tag, in row order (the claim's "mapping from tags to
member-vector sets", read off the joined rows). -/
def memberVecs (tag : String) (rows : List (List String × List ℝ)) :
    List (List ℝ) :=
  (rows.filter (fun r => decide (tag ∈ r.1))).map Prod.snd

/-- Occurrence-counted member vectors: one copy of the row's vector per
occurrence of the tag in the row's tag list — exactly what the
`for tag in tags` loop appends.  Coincides with `memberVecs` when each
row's tag list has no duplicates. -/
def memberOcc (tag : String) : List (List String × List ℝ) → List (List ℝ)
  | [] => []
  | r :: rest =>
      ((r.1.filter (fun t => decide (t = tag))).map (fun _ => r.2)) ++
        memberOcc tag rest

/-- Bucket update in `Option` form: appending `occ` new member vectors
to an optional existing bucket, `none` meaning "tag absent". -/
def optAppend {γ : Type} : Option (List γ) → List γ → Option (List γ)
  | none, [] => none
  | none, occ => some occ
  | some vs, occ => some (vs ++ occ)

end

/-! ## Theorems for the codec claims -/

theorem float32OfBytes_bytesOfFloat32 (w : Nat) (hw : w < 2 ^ 32) :
    float32OfBytes (w % 256) (w / 256 % 256) (w / 256 ^ 2 % 256) (w / 256 ^ 3 % 256) = w := by
  unfold float32OfBytes
  omega

/-- C2: decoding the encoding of any vector of single-precision floats
(32-bit patterns) returns the vector exactly, bit for bit. -/
theorem from_blob_to_blob (v : List Nat) (hv : ∀ x ∈ v, x < 2 ^ 32) :
    from_blob (to_blob v) = some v := by
  induction v with
  | nil => rfl
  | cons w rest ih =>
      have hw : w < 2 ^ 32 := hv w (by simp)
      have hrest : ∀ x ∈ rest, x < 2 ^ 32 := fun x hx => hv x (by simp [hx])
      simp only [to_blob, List.map_cons, List.flatten_cons, bytesOfFloat32]
      simp only [List.cons_append, List.nil_append, from_blob]
      rw [show ((rest.map bytesOfFloat32).flatten : List Nat) = to_blob rest from rfl]
      simp only [List.append_eq, List.nil_append]
      rw [ih hrest]
      simp only [Option.map_some', Option.some.injEq, List.cons.injEq]
      refine ⟨?_, trivial⟩
      unfold float32OfBytes
      omega

theorem from_blob_to_blob_witness :
    (∀ x ∈ [0, 1, 3212836864], x < 2 ^ 32) ∧
      from_blob (to_blob [0, 1, 3212836864]) = some [0, 1, 3212836864] :=
  ⟨by decide, from_blob_to_blob [0, 1, 3212836864] (by decide)⟩

/-- C5: on a blob whose length is not a multiple of 4, `from_blob` fails
(with `struct.error`, the spec's `MalformedBlob`); it never silently
truncates: whenever it does return a vector, the blob length is exactly
four bytes per component. -/
theorem from_blob_malformed (blob : List Nat) :
    (blob.length % 4 ≠ 0 → from_blob blob = none) ∧
      (∀ v, from_blob blob = some v → blob.length = 4 * v.length ∧ blob.length % 4 = 0) := by
  induction blob using from_blob.induct with
  | case1 =>
      refine ⟨fun h => absurd rfl h, fun v hv => ?_⟩
      simp only [from_blob] at hv
      cases hv
      simp
  | case2 b0 b1 b2 b3 rest ih =>
      refine ⟨fun h => ?_, fun v hv => ?_⟩
      · simp only [from_blob]
        have : rest.length % 4 ≠ 0 := by
          simp only [List.length_cons] at h
          omega
        rw [ih.1 this]
        rfl
      · simp only [from_blob, Option.map_eq_some'] at hv
        obtain ⟨w, hw, hv⟩ := hv
        obtain ⟨h1, h2⟩ := ih.2 w hw
        subst hv
        simp only [List.length_cons, List.length_cons]
        omega
  | case3 blob h1 h2 =>
      have hnone : from_blob blob = none := by
        cases blob with
        | nil => exact absurd rfl h1
        | cons a t =>
          cases t with
          | nil => rfl
          | cons a2 t2 =>
            cases t2 with
            | nil => rfl
            | cons a3 t3 =>
              cases t3 with
              | nil => rfl
              | cons a4 t4 => exact absurd rfl (h2 a a2 a3 a4 t4)
      refine ⟨fun _ => hnone, fun v hv => ?_⟩
      rw [hnone] at hv
      cases hv

theorem from_blob_malformed_witness :
    ([0, 0, 0] : List Nat).length % 4 ≠ 0 ∧ from_blob [0, 0, 0] = none :=
  ⟨by decide, (from_blob_malformed [0, 0, 0]).1 (by decide)⟩

/-! ## Stable-sort helper lemmas -/

theorem descBy_trans {α : Type} (key : α → ℚ) (a b c : α) :
    descBy key a b → descBy key b c → descBy key a c := by
  simp only [descBy, decide_eq_true_eq]
  exact fun h1 h2 => le_trans h2 h1

theorem descBy_total {α : Type} (key : α → ℚ) (a b : α) :
    descBy key a b || descBy key b a := by
  simp only [descBy]
  by_cases h : key b ≤ key a
  · simp [h]
  · simp [le_of_not_le h]

theorem sorted_mergeSort_descBy {α : Type} (key : α → ℚ) (l : List α) :
    (l.mergeSort (descBy key)).Pairwise (fun a b => key b ≤ key a) := by
  have h := @List.sorted_mergeSort α (descBy key) (descBy_trans key) (descBy_total key) l
  exact h.imp (fun hab => by simpa [descBy] using hab)

/-- C1: `rank` returns the `(key, score)` pairs of its candidates
(a permutation of the scored candidate list) sorted by descending
dot-product score, and the sort is stable: two candidates with equal
scores keep their relative input order.  Determinism over equal inputs
is immediate since `rank` (like Python's `sorted`) is a pure function
of `(query_vec, candidates)`. -/
theorem rank_sorted_stable (q : List ℚ) (c : List (String × List ℚ)) :
    List.Perm (rank q c) (scoredCandidates q c) ∧
      (rank q c).Pairwise (fun a b => b.2 ≤ a.2) ∧
      ∀ a b : String × ℚ, a.2 = b.2 → List.Sublist [a, b] (scoredCandidates q c) →
        List.Sublist [a, b] (rank q c) := by
  match c with
  | [] =>
      refine ⟨by simp [rank, scoredCandidates], by simp [rank], ?_⟩
      intro a b _ hab
      simp [scoredCandidates] at hab
  | c0 :: cs =>
      refine ⟨List.mergeSort_perm _ _, ?_, ?_⟩
      · exact sorted_mergeSort_descBy Prod.snd (scoredCandidates q (c0 :: cs))
      · intro a b hab hsub
        exact List.pair_sublist_mergeSort (descBy_trans _) (descBy_total _)
          (by simp [descBy, hab]) hsub

theorem rank_sorted_stable_witness :
    List.Sublist [("k1", (2 : ℚ)), ("k2", 2)] (scoredCandidates [1] [("k1", [2]), ("k2", [2])]) ∧
      List.Sublist [("k1", (2 : ℚ)), ("k2", 2)] (rank [1] [("k1", [2]), ("k2", [2])]) := by
  have h : scoredCandidates [1] [("k1", [2]), ("k2", [2])] = [("k1", (2 : ℚ)), ("k2", 2)] := by
    norm_num [scoredCandidates, dot]
  have hs : List.Sublist [("k1", (2 : ℚ)), ("k2", 2)]
      (scoredCandidates [1] [("k1", [2]), ("k2", [2])]) := by
    rw [h]
  exact ⟨hs,
    (rank_sorted_stable [1] [("k1", [2]), ("k2", [2])]).2.2 ("k1", 2) ("k2", 2) rfl hs⟩

/-- C4 counterexample: the centroid map inserts `"b"` before `"a"`, both
with the identical centroid `[1]`, so both score the identical value
`dot [1] [1]`.  The claimed ascending-tag-name tie-break would return
`["a", "b"]`, but `suggest_tags` returns `["b", "a"]`: Python's
`scored.sort(key=lambda x: -x[1])` is stable and keeps ties in
centroid-map insertion order, it does not compare tag names. -/
theorem suggest_tags_tie_counterexample :
    suggest_tags [1] [("b", [1]), ("a", [1])] AUTO_TAG_THRESHOLD AUTO_TAG_MAX =
      ["b", "a"] ∧ (["b", "a"] : List String) ≠ ["a", "b"] := by
  refine ⟨?_, by decide⟩
  have hs : scoredTags [1] [("b", [1]), ("a", [1])] AUTO_TAG_THRESHOLD =
      [("b", 1), ("a", 1)] := by
    simp only [scoredTags, AUTO_TAG_THRESHOLD, dot]
    norm_num
  have hsorted : List.Pairwise (fun a b => descBy (Prod.snd : String × ℚ → ℚ) a b = true)
      [("b", (1 : ℚ)), ("a", 1)] := by
    simp [descBy]
  simp only [suggest_tags, hs, List.mergeSort_of_sorted hsorted]
  simp [AUTO_TAG_MAX]

/-- C4 amended: `suggest_tags` filters by threshold, sorts by descending
score with ties keeping the centroid-map (dict insertion) order — a
stable sort, not an ascending-tag-name tie-break — and truncates to
`max_tags` entries (the default constant is 5). -/
theorem suggest_tags_sorted_stable_truncated (q : List ℚ)
    (c : List (String × List ℚ)) (t : ℚ) (m : Nat) :
    suggest_tags q c t m = ((sortedScoredTags q c t).take m).map Prod.fst ∧
      List.Perm (sortedScoredTags q c t) (scoredTags q c t) ∧
      (sortedScoredTags q c t).Pairwise (fun a b => b.2 ≤ a.2) ∧
      (∀ a b : String × ℚ, a.2 = b.2 → List.Sublist [a, b] (scoredTags q c t) →
        List.Sublist [a, b] (sortedScoredTags q c t)) ∧
      (suggest_tags q c t m).length ≤ m ∧ AUTO_TAG_MAX = 5 := by
  have hdef : suggest_tags q c t m = ((sortedScoredTags q c t).take m).map Prod.fst := by
    match c with
    | [] => simp [suggest_tags, sortedScoredTags, scoredTags]
    | _ :: _ => rfl
  refine ⟨hdef, List.mergeSort_perm _ _, ?_, ?_, ?_, rfl⟩
  · exact sorted_mergeSort_descBy Prod.snd (scoredTags q c t)
  · intro a b hab hsub
    exact List.pair_sublist_mergeSort (descBy_trans _) (descBy_total _)
      (by simp [descBy, hab]) hsub
  · rw [hdef, List.length_map]
    exact List.length_take_le _ _

theorem suggest_tags_sorted_stable_truncated_witness :
    (("x", (1 : ℚ)).2 = (("y", (1 : ℚ)).2) ∧
      List.Sublist [("x", (1 : ℚ)), ("y", 1)] (scoredTags [1] [("x", [1]), ("y", [1])] 0)) ∧
      List.Sublist [("x", (1 : ℚ)), ("y", 1)] (sortedScoredTags [1] [("x", [1]), ("y", [1])] 0) := by
  have h : scoredTags [1] [("x", [1]), ("y", [1])] 0 = [("x", (1 : ℚ)), ("y", 1)] := by
    simp only [scoredTags, dot]
    norm_num
  have hs : List.Sublist [("x", (1 : ℚ)), ("y", 1)] (scoredTags [1] [("x", [1]), ("y", [1])] 0) := by
    rw [h]
  exact ⟨⟨rfl, hs⟩,
    (suggest_tags_sorted_stable_truncated [1] [("x", [1]), ("y", [1])] 0 5).2.2.2.1
      ("x", 1) ("y", 1) rfl hs⟩

/-- C7 counterexample: with six centroids all passing the threshold and
the sixth, `"z"`, scoring exactly `AUTO_TAG_THRESHOLD = 0.45`, the
default truncation `AUTO_TAG_MAX = 5` drops `"z"` from the output even
though its score equals the threshold — so "suggest_tags retains a tag
whose centroid score is exactly equal to the threshold" is not true for
every input. -/
theorem suggest_tags_threshold_counterexample :
    dot [1] [9 / 20] = AUTO_TAG_THRESHOLD ∧
      suggest_tags [1]
        [("a", [1]), ("b", [1]), ("c", [1]), ("d", [1]), ("e", [1]), ("z", [9 / 20])]
        AUTO_TAG_THRESHOLD AUTO_TAG_MAX = ["a", "b", "c", "d", "e"] ∧
      "z" ∉ (["a", "b", "c", "d", "e"] : List String) := by
  refine ⟨by norm_num [dot, AUTO_TAG_THRESHOLD], ?_, by decide⟩
  have hs : scoredTags [1]
      [("a", [1]), ("b", [1]), ("c", [1]), ("d", [1]), ("e", [1]), ("z", [9 / 20])]
      AUTO_TAG_THRESHOLD =
      [("a", 1), ("b", 1), ("c", 1), ("d", 1), ("e", 1), ("z", 9 / 20)] := by
    simp only [scoredTags, AUTO_TAG_THRESHOLD, dot]
    norm_num
  have hsorted : List.Pairwise (fun a b => descBy (Prod.snd : String × ℚ → ℚ) a b = true)
      [("a", (1 : ℚ)), ("b", 1), ("c", 1), ("d", 1), ("e", 1), ("z", 9 / 20)] := by
    norm_num [descBy, List.pairwise_cons]
  simp only [suggest_tags, hs, List.mergeSort_of_sorted hsorted]
  simp [AUTO_TAG_MAX]

/-- C7 amended: the retention boundary of `suggest_tags` is inclusive
(`>=`): a tag scoring strictly below the threshold never appears in the
output, and a tag scoring exactly the threshold does appear whenever the
retained tags are not truncated away (at most `max_tags` tags pass the
threshold); the default threshold constant is 0.45. -/
theorem suggest_tags_threshold_inclusive (q : List ℚ) (c : List (String × List ℚ))
    (t : ℚ) (m : Nat) (tag : String) (v : List ℚ) :
    AUTO_TAG_THRESHOLD = 45 / 100 ∧
      ((tag, v) ∈ c → dot q v < t → (c.map Prod.fst).Nodup →
        tag ∉ suggest_tags q c t m) ∧
      ((tag, v) ∈ c → dot q v = t → (scoredTags q c t).length ≤ m →
        tag ∈ suggest_tags q c t m) := by
  have hdef : suggest_tags q c t m = ((sortedScoredTags q c t).take m).map Prod.fst := by
    match c with
    | [] => simp [suggest_tags, sortedScoredTags, scoredTags]
    | _ :: _ => rfl
  refine ⟨rfl, ?_, ?_⟩
  · intro hmem hlt hnodup htag
    rw [hdef] at htag
    obtain ⟨p, hp, hfst⟩ := List.mem_map.mp htag
    have hp' : p ∈ sortedScoredTags q c t := List.mem_of_mem_take hp
    have hp'' : p ∈ scoredTags q c t :=
      (List.mergeSort_perm _ _).mem_iff.mp hp'
    simp only [scoredTags, List.mem_map, List.mem_filter] at hp''
    obtain ⟨r, ⟨hmem'', hthr⟩, heq⟩ := hp''
    have hrfst : r.1 = tag := by rw [← hfst, ← heq]
    have hr : r = (tag, v) :=
      List.inj_on_of_nodup_map hnodup hmem'' hmem (by rw [hrfst])
    rw [hr] at hthr
    simp only [decide_eq_true_eq] at hthr
    exact absurd hlt (not_lt.mpr hthr)
  · intro hmem heq hlen
    rw [hdef]
    have hscored : (tag, dot q v) ∈ scoredTags q c t := by
      simp only [scoredTags, List.mem_map, List.mem_filter]
      exact ⟨(tag, v), ⟨hmem, by simp [heq]⟩, rfl⟩
    have hsorted : (tag, dot q v) ∈ sortedScoredTags q c t :=
      (List.mergeSort_perm _ _).mem_iff.mpr hscored
    have hlen' : (sortedScoredTags q c t).length ≤ m := by
      have : (sortedScoredTags q c t).length = (scoredTags q c t).length :=
        (List.mergeSort_perm _ _).length_eq
      omega
    rw [List.take_of_length_le hlen']
    exact List.mem_map.mpr ⟨(tag, dot q v), hsorted, rfl⟩

theorem suggest_tags_threshold_inclusive_witness :
    (("x", [(9 : ℚ) / 20]) ∈ ([("x", [9 / 20]), ("y", [2 / 5])] : List (String × List ℚ)) ∧
        dot [1] [9 / 20] = AUTO_TAG_THRESHOLD ∧
        (scoredTags [1] [("x", [9 / 20]), ("y", [2 / 5])] AUTO_TAG_THRESHOLD).length ≤ 5) ∧
      (("y", [(2 : ℚ) / 5]) ∈ ([("x", [9 / 20]), ("y", [2 / 5])] : List (String × List ℚ)) ∧
        dot [1] [2 / 5] < AUTO_TAG_THRESHOLD ∧
        (([("x", [9 / 20]), ("y", [2 / 5])] : List (String × List ℚ)).map Prod.fst).Nodup) ∧
      "x" ∈ suggest_tags [1] [("x", [9 / 20]), ("y", [2 / 5])] AUTO_TAG_THRESHOLD 5 ∧
      "y" ∉ suggest_tags [1] [("x", [9 / 20]), ("y", [2 / 5])] AUTO_TAG_THRESHOLD 5 := by
  have hlen : (scoredTags [1] [("x", [(9 : ℚ) / 20]), ("y", [2 / 5])] AUTO_TAG_THRESHOLD).length ≤ 5 := by
    simp only [scoredTags, AUTO_TAG_THRESHOLD, dot]
    norm_num
  have hx : dot [1] [(9 : ℚ) / 20] = AUTO_TAG_THRESHOLD := by
    norm_num [dot, AUTO_TAG_THRESHOLD]
  have hy : dot [1] [(2 : ℚ) / 5] < AUTO_TAG_THRESHOLD := by
    norm_num [dot, AUTO_TAG_THRESHOLD]
  refine ⟨⟨by simp, hx, hlen⟩, ⟨by simp, hy, by simp⟩, ?_, ?_⟩
  · exact (suggest_tags_threshold_inclusive [1] [("x", [9 / 20]), ("y", [2 / 5])]
      AUTO_TAG_THRESHOLD 5 "x" [9 / 20]).2.2 (by simp) hx hlen
  · exact (suggest_tags_threshold_inclusive [1] [("x", [9 / 20]), ("y", [2 / 5])]
      AUTO_TAG_THRESHOLD 5 "y" [2 / 5]).2.1 (by simp) hy (by simp)

/-! ## Stability as a lexicographic order

A stable descending sort of a list whose elements carry strictly
increasing indices is sorted for the lexicographic order "higher key
first, equal keys by lower index first".  This is the tie-break rule the
graph builder's per-node candidate sort must satisfy. -/

theorem two_mem_sublist {α : Type} {l : List α} {a b : α} (ha : a ∈ l) (hb : b ∈ l)
    (hne : a ≠ b) : List.Sublist [a, b] l ∨ List.Sublist [b, a] l := by
  induction l with
  | nil => cases ha
  | cons x xs ih =>
      rcases List.mem_cons.mp ha with rfl | ha'
      · left
        have hb' : b ∈ xs := by
          rcases List.mem_cons.mp hb with h | h
          · exact absurd h.symm hne
          · exact h
        exact List.Sublist.cons₂ _ (List.singleton_sublist.mpr hb')
      · rcases List.mem_cons.mp hb with rfl | hb'
        · right
          exact List.Sublist.cons₂ _ (List.singleton_sublist.mpr ha')
        · exact (ih ha' hb').imp (List.Sublist.cons _) (List.Sublist.cons _)

theorem not_sublist_pair_swap {α : Type} {l : List α} {a b : α} (hnd : l.Nodup)
    (hne : a ≠ b) (h1 : List.Sublist [a, b] l) (h2 : List.Sublist [b, a] l) :
    False := by
  induction l with
  | nil => exact absurd (List.sublist_nil.mp h1) (by simp)
  | cons x xs ih =>
      rw [List.nodup_cons] at hnd
      cases h1 with
      | cons _ h1' =>
          cases h2 with
          | cons _ h2' => exact ih hnd.2 h1' h2'
          | cons₂ h2' => exact hnd.1 (h1'.subset (by simp))
      | cons₂ h1' =>
          cases h2 with
          | cons _ h2' => exact hnd.1 (h2'.subset (by simp))
          | cons₂ h2' => exact hne rfl

theorem mergeSort_pairwise_lex {α : Type} (key : α → ℚ) (idx : α → Nat) (l : List α)
    (hl : l.Pairwise (fun a b => idx a < idx b)) :
    (l.mergeSort (descBy key)).Pairwise
      (fun a b => key b < key a ∨ (key b = key a ∧ idx a < idx b)) := by
  have hmapnd : (l.map idx).Nodup :=
    List.pairwise_map.mpr (hl.imp fun h => Nat.ne_of_lt h)
  have hnd : l.Nodup := List.Nodup.of_map idx hmapnd
  have hperm := List.mergeSort_perm l (descBy key)
  have hout_nd : (l.mergeSort (descBy key)).Nodup := hperm.nodup_iff.mpr hnd
  rw [List.pairwise_iff_forall_sublist]
  intro a b hsub
  have hsorted := List.sorted_mergeSort (descBy_trans key) (descBy_total key) l
  have hab : descBy key a b = true := List.pairwise_iff_forall_sublist.mp hsorted hsub
  have hle : key b ≤ key a := by simpa [descBy] using hab
  rcases eq_or_lt_of_le hle with heq | hlt
  · refine Or.inr ⟨heq, ?_⟩
    have hamem : a ∈ l := List.mem_mergeSort.mp (hsub.subset (by simp))
    have hbmem : b ∈ l := List.mem_mergeSort.mp (hsub.subset (by simp))
    have hne : a ≠ b := by
      rintro rfl
      have := hsub.nodup hout_nd
      simp at this
    have hidxne : idx a ≠ idx b := fun h =>
      hne (List.inj_on_of_nodup_map hmapnd hamem hbmem h)
    rcases Nat.lt_or_ge (idx a) (idx b) with h | h
    · exact h
    · exfalso
      have hba : idx b < idx a := Nat.lt_of_le_of_ne h (fun h2 => hidxne h2.symm)
      have hsubl : List.Sublist [b, a] l := by
        rcases two_mem_sublist hbmem hamem (fun h => hne h.symm) with h1 | h1
        · exact h1
        · have := List.pairwise_iff_forall_sublist.mp hl h1
          omega
      have hsw : List.Sublist [b, a] (l.mergeSort (descBy key)) :=
        List.pair_sublist_mergeSort (descBy_trans key) (descBy_total key)
          (by simp [descBy, heq]) hsubl
      exact not_sublist_pair_swap hout_nd hne hsub hsw
  · exact Or.inl hlt

/-! ## Graph-builder lemmas -/

theorem nodeCands_pairwise_fst (n : Nat) (sims : Nat → Nat → ℚ) (i : Nat) :
    (nodeCands n sims i).Pairwise (fun a b => a.1 < b.1) := by
  unfold nodeCands
  exact List.pairwise_map.mpr ((List.pairwise_lt_range n).filter _)

theorem nodePicks_mem {n : Nat} {sims : Nat → Nat → ℚ} {k i j : Nat} {s : ℚ}
    (h : (j, s) ∈ nodePicks n sims k i) : j < n ∧ j ≠ i ∧ s = sims i j := by
  have h1 : (j, s) ∈ sortedCands n sims i := List.mem_of_mem_take h
  have h2 : (j, s) ∈ nodeCands n sims i := List.mem_mergeSort.mp h1
  unfold nodeCands at h2
  obtain ⟨j', hj', heq⟩ := List.mem_map.mp h2
  obtain ⟨hrange, hne⟩ := List.mem_filter.mp hj'
  obtain ⟨rfl, rfl⟩ := Prod.mk.injEq .. ▸ heq
  exact ⟨List.mem_range.mp hrange, by simpa using hne, rfl⟩

theorem stepNode_inv (i : Nat) (Q : Link → Prop) :
    ∀ (ps : List (Nat × ℚ)) (seen : List (Nat × Nat)) (links : List Link),
      seen = links.map canonL → seen.Nodup → (∀ l ∈ links, Q l) →
      (∀ p ∈ ps, Q ⟨i, p.1, p.2⟩) →
      (stepNode i ps seen links).1 = (stepNode i ps seen links).2.map canonL ∧
        (stepNode i ps seen links).1.Nodup ∧
        ∀ l ∈ (stepNode i ps seen links).2, Q l := by
  intro ps
  induction ps with
  | nil => exact fun seen links h1 h2 h3 _ => ⟨h1, h2, h3⟩
  | cons p ps ih =>
      intro seen links h1 h2 h3 h4
      obtain ⟨j, s⟩ := p
      by_cases hmem : canonEdge i j ∈ seen
      · simp only [stepNode, if_pos hmem]
        exact ih seen links h1 h2 h3 (fun p hp => h4 p (by simp [hp]))
      · simp only [stepNode, if_neg hmem]
        refine ih _ _ ?_ ?_ ?_ (fun p hp => h4 p (by simp [hp]))
        · rw [List.map_append, ← h1]
          rfl
        · simp [List.nodup_append, h2, hmem]
        · intro l hl
          rcases List.mem_append.mp hl with h | h
          · exact h3 l h
          · have hl' : l = ⟨i, j, s⟩ := by simpa using h
            exact hl' ▸ h4 (j, s) (by simp)

theorem buildLinks_inv (picks : Nat → List (Nat × ℚ)) (Q : Link → Prop) :
    ∀ (todo : List Nat) (seen : List (Nat × Nat)) (links : List Link),
      (∀ i ∈ todo, ∀ p ∈ picks i, Q ⟨i, p.1, p.2⟩) →
      seen = links.map canonL → seen.Nodup → (∀ l ∈ links, Q l) →
      (buildLinks picks todo seen links).1 =
          (buildLinks picks todo seen links).2.map canonL ∧
        (buildLinks picks todo seen links).1.Nodup ∧
        ∀ l ∈ (buildLinks picks todo seen links).2, Q l := by
  intro todo
  induction todo with
  | nil => exact fun seen links _ h1 h2 h3 => ⟨h1, h2, h3⟩
  | cons i rest ih =>
      intro seen links htodo h1 h2 h3
      simp only [buildLinks]
      obtain ⟨g1, g2, g3⟩ :=
        stepNode_inv i Q (picks i) seen links h1 h2 h3
          (fun p hp => htodo i (by simp) p hp)
      exact ih _ _ (fun i' hi' p hp => htodo i' (by simp [hi']) p hp) g1 g2 g3

/-- C6: in one graph build, the edge set has at most one entry per
unordered pair of node indices (the canonicalized pairs are duplicate
free) and no self edges; every link's endpoints are valid node indices
and its score is the processing direction's matrix entry
`sims[source][target]`, taken from the source node's top-`k` pick list;
nodes are processed in ascending index order (the fold over
`List.range n`), and each node's candidate sort is a permutation of all
other nodes ordered by descending score with ties going to the lower
original index first (stability of the sort over the ascending-index
candidate list). -/
theorem graph_edges_dedup_topk (n : Nat) (sims : Nat → Nat → ℚ) (k : Nat) :
    ((graphLinks n sims k).map canonL).Nodup ∧
      (∀ l ∈ graphLinks n sims k,
        l.source < n ∧ l.target < n ∧ l.source ≠ l.target ∧
          l.similarity = sims l.source l.target ∧
          (l.target, l.similarity) ∈ nodePicks n sims k l.source) ∧
      (∀ i, List.Perm (sortedCands n sims i) (nodeCands n sims i)) ∧
      ∀ i, (sortedCands n sims i).Pairwise
        (fun a b => b.2 < a.2 ∨ (b.2 = a.2 ∧ a.1 < b.1)) := by
  obtain ⟨g1, g2, g3⟩ :=
    buildLinks_inv (nodePicks n sims k)
      (fun l => l.source < n ∧ (l.target, l.similarity) ∈ nodePicks n sims k l.source)
      (List.range n) [] []
      (fun i hi p hp => ⟨List.mem_range.mp hi, hp⟩)
      rfl (by simp) (by simp)
  refine ⟨?_, ?_, fun i => List.mergeSort_perm _ _, fun i =>
    mergeSort_pairwise_lex Prod.snd Prod.fst _ (nodeCands_pairwise_fst n sims i)⟩
  · unfold graphLinks
    rw [← g1]
    exact g2
  · intro l hl
    obtain ⟨hsrc, hpick⟩ := g3 l hl
    obtain ⟨htgt, hne, hsim⟩ := nodePicks_mem hpick
    exact ⟨hsrc, htgt, fun h => hne h.symm, hsim, hpick⟩

unseal List.merge List.mergeSort in
theorem graph_edges_dedup_topk_witness :
    (⟨0, 1, 0⟩ : Link) ∈ graphLinks 2 (fun _ _ => 0) 3 ∧
      ((⟨0, 1, 0⟩ : Link).source < 2 ∧ (⟨0, 1, 0⟩ : Link).target < 2 ∧
        (⟨0, 1, 0⟩ : Link).source ≠ (⟨0, 1, 0⟩ : Link).target ∧
        (⟨0, 1, 0⟩ : Link).similarity = 0 ∧
        ((⟨0, 1, 0⟩ : Link).target, (⟨0, 1, 0⟩ : Link).similarity) ∈
          nodePicks 2 (fun _ _ => 0) 3 (⟨0, 1, 0⟩ : Link).source) :=
  ⟨by decide, (graph_edges_dedup_topk 2 (fun _ _ => 0) 3).2.1 ⟨0, 1, 0⟩ (by decide)⟩

/-- C8: empty inputs are not errors: `rank` on an empty candidate list
returns `[]`, `suggest_tags` on an empty centroid map returns `[]`, and
a graph build over fewer than 2 records returns the empty graph — all
three return normally. -/
theorem empty_inputs_degrade (q v : List ℚ) (t : ℚ) (m : Nat) (keys : List String)
    (sims : Nat → Nat → ℚ) (k : Nat) :
    rank q [] = [] ∧ suggest_tags v [] t m = [] ∧
      (keys.length < 2 → get_graph keys sims k = ([], [])) :=
  ⟨rfl, rfl, fun h => by simp [get_graph, h]⟩

theorem empty_inputs_degrade_witness :
    (["solo"] : List String).length < 2 ∧
      get_graph ["solo"] (fun _ _ => 0) 3 = ([], []) :=
  ⟨by decide,
    (empty_inputs_degrade [] [] 0 0 ["solo"] (fun _ _ => 0) 3).2.2 (by decide)⟩

/-! ## Note-storage lemmas and the lifecycle claim -/

theorem alookup_upsertNote_self (notes : List (String × NoteRow)) (key body : String)
    (tags : List String) (now : String) :
    alookup (upsertNote notes key body tags now) key =
      some ⟨body, tags, (alookup notes key).elim now NoteRow.created_at, now⟩ := by
  induction notes with
  | nil => simp [upsertNote, alookup]
  | cons kv rest ih =>
      obtain ⟨k, r⟩ := kv
      by_cases hk : k = key
      · simp [upsertNote, alookup, hk]
      · simp [upsertNote, alookup, hk, ih]

theorem alookup_upsertNote_ne (notes : List (String × NoteRow)) (key body : String)
    (tags : List String) (now : String) (key' : String) (h : key' ≠ key) :
    alookup (upsertNote notes key body tags now) key' = alookup notes key' := by
  induction notes with
  | nil =>
      simp only [upsertNote, alookup]
      rw [if_neg (Ne.symm h)]
  | cons kv rest ih =>
      obtain ⟨k, r⟩ := kv
      by_cases hk : k = key
      · subst hk
        simp only [upsertNote, if_pos rfl, alookup]
        rw [if_neg (Ne.symm h), if_neg (Ne.symm h)]
      · simp only [upsertNote, if_neg hk, alookup]
        by_cases hk' : k = key'
        · rw [if_pos hk', if_pos hk']
        · rw [if_neg hk', if_neg hk', ih]

theorem alookup_upsertEmbedding_self (l : List (String × List ℚ)) (key : String)
    (vec : List ℚ) :
    alookup (upsertEmbedding l key vec) key = some vec := by
  induction l with
  | nil => simp [upsertEmbedding, alookup]
  | cons kv rest ih =>
      obtain ⟨k, v⟩ := kv
      by_cases hk : k = key
      · simp [upsertEmbedding, alookup, hk]
      · simp [upsertEmbedding, alookup, hk, ih]

theorem alookup_upsertEmbedding_ne (l : List (String × List ℚ)) (key : String)
    (vec : List ℚ) (key' : String) (h : key' ≠ key) :
    alookup (upsertEmbedding l key vec) key' = alookup l key' := by
  induction l with
  | nil =>
      simp only [upsertEmbedding, alookup]
      rw [if_neg (Ne.symm h)]
  | cons kv rest ih =>
      obtain ⟨k, v⟩ := kv
      by_cases hk : k = key
      · subst hk
        simp only [upsertEmbedding, if_pos rfl, alookup]
        rw [if_neg (Ne.symm h), if_neg (Ne.symm h)]
      · simp only [upsertEmbedding, if_neg hk, alookup]
        by_cases hk' : k = key'
        · rw [if_pos hk', if_pos hk']
        · rw [if_neg hk', if_neg hk', ih]

theorem alookup_filter_out {β : Type} (l : List (String × β)) (key : String) :
    alookup (l.filter (fun kv => decide (kv.1 ≠ key))) key = none := by
  induction l with
  | nil => rfl
  | cons kv rest ih =>
      obtain ⟨k, v⟩ := kv
      rw [List.filter_cons]
      by_cases hk : k = key
      · rw [if_neg (by simp [hk])]
        exact ih
      · rw [if_pos (by simp [hk])]
        simp only [alookup]
        rw [if_neg hk]
        exact ih

theorem alookup_filter_keep {β : Type} (l : List (String × β)) (key key' : String)
    (h : key' ≠ key) :
    alookup (l.filter (fun kv => decide (kv.1 ≠ key))) key' = alookup l key' := by
  induction l with
  | nil => rfl
  | cons kv rest ih =>
      obtain ⟨k, v⟩ := kv
      rw [List.filter_cons]
      by_cases hk : k = key
      · subst hk
        rw [if_neg (by simp)]
        rw [ih]
        simp only [alookup]
        rw [if_neg (Ne.symm h)]
      · rw [if_pos (by simp [hk])]
        simp only [alookup]
        by_cases hk' : k = key'
        · rw [if_pos hk', if_pos hk']
        · rw [if_neg hk', if_neg hk']
          exact ih

/-- C9: no orphaned vectors.  `store_note` writes the note row and its
recomputed embedding in the same `db.connect()` transaction — one
atomic state transition after which both the note and the embedding are
stored under the key; `delete_note` deletes both the note row and its
embedding, so afterwards no embedding remains under the key; both
operations preserve the no-orphaned-vectors invariant. -/
theorem store_delete_note_integrity (s : KBState) (key body : String)
    (tag_list : List String) (vec : List ℚ) (now : String) :
    (∃ c, alookup (store_note s key body tag_list vec now).notes key =
        some ⟨body, tag_list, c, now⟩) ∧
      alookup (store_note s key body tag_list vec now).embeddings key = some vec ∧
      alookup (delete_note s key).1.notes key = none ∧
      alookup (delete_note s key).1.embeddings key = none ∧
      (orphanFree s → orphanFree (store_note s key body tag_list vec now)) ∧
      (orphanFree s → orphanFree (delete_note s key).1) := by
  refine ⟨⟨(alookup s.notes key).elim now NoteRow.created_at,
      alookup_upsertNote_self s.notes key body tag_list now⟩,
    alookup_upsertEmbedding_self s.embeddings key vec,
    alookup_filter_out s.notes key,
    alookup_filter_out s.embeddings key, ?_, ?_⟩
  · intro hof k hk
    by_cases hkey : k = key
    · subst hkey
      rw [show (store_note s k body tag_list vec now).notes =
          upsertNote s.notes k body tag_list now from rfl,
        alookup_upsertNote_self] at hk
      cases hk
    · rw [show (store_note s key body tag_list vec now).notes =
          upsertNote s.notes key body tag_list now from rfl,
        alookup_upsertNote_ne s.notes key body tag_list now k hkey] at hk
      rw [show (store_note s key body tag_list vec now).embeddings =
          upsertEmbedding s.embeddings key vec from rfl,
        alookup_upsertEmbedding_ne s.embeddings key vec k hkey]
      exact hof k hk
  · intro hof k hk
    by_cases hkey : k = key
    · subst hkey
      exact alookup_filter_out s.embeddings k
    · rw [show (delete_note s key).1.notes =
          s.notes.filter (fun kv => decide (kv.1 ≠ key)) from rfl,
        alookup_filter_keep s.notes key k hkey] at hk
      rw [show (delete_note s key).1.embeddings =
          s.embeddings.filter (fun kv => decide (kv.1 ≠ key)) from rfl,
        alookup_filter_keep s.embeddings key k hkey]
      exact hof k hk

theorem store_delete_note_integrity_witness :
    orphanFree (⟨[("a", ⟨"x", [], "t0", "t0"⟩)], [("a", [1])]⟩ : KBState) ∧
      alookup (store_note ⟨[], []⟩ "a" "hello" ["t"] [1] "t1").embeddings "a" =
        some [1] ∧
      alookup (delete_note (⟨[("a", ⟨"x", [], "t0", "t0"⟩)], [("a", [1])]⟩ : KBState)
        "a").1.embeddings "a" = none ∧
      orphanFree (delete_note (⟨[("a", ⟨"x", [], "t0", "t0"⟩)], [("a", [1])]⟩ : KBState)
        "a").1 := by
  have hof : orphanFree (⟨[("a", ⟨"x", [], "t0", "t0"⟩)], [("a", [1])]⟩ : KBState) := by
    intro k hk
    by_cases ha : "a" = k
    · simp [alookup, ha] at hk
    · simp [alookup, ha]
  refine ⟨hof,
    (store_delete_note_integrity ⟨[], []⟩ "a" "hello" ["t"] [1] "t1").2.1,
    (store_delete_note_integrity ⟨[("a", ⟨"x", [], "t0", "t0"⟩)], [("a", [1])]⟩
      "a" "" [] [] "").2.2.2.1,
    (store_delete_note_integrity ⟨[("a", ⟨"x", [], "t0", "t0"⟩)], [("a", [1])]⟩
      "a" "" [] [] "").2.2.2.2.2 hof⟩

/-! ## Semantic search lemmas and the top-10 claim -/

theorem rank_perm_scored (q : List ℚ) (c : List (String × List ℚ)) :
    List.Perm (rank q c) (scoredCandidates q c) := by
  match c with
  | [] => simp [rank, scoredCandidates]
  | _ :: _ => exact List.mergeSort_perm _ _

theorem alookup_isSome_of_mem_fst {β : Type} {l : List (String × β)} {k : String}
    (h : k ∈ l.map Prod.fst) : ∃ v, alookup l k = some v := by
  induction l with
  | nil => simp at h
  | cons kv rest ih =>
      obtain ⟨k', v'⟩ := kv
      by_cases hk : k' = k
      · exact ⟨v', by simp [alookup, hk]⟩
      · have h' : k ∈ rest.map Prod.fst := by
          rcases List.mem_map.mp h with ⟨p, hp, hpk⟩
          rcases List.mem_cons.mp hp with rfl | hp'
          · exact absurd hpk hk
          · exact List.mem_map.mpr ⟨p, hp', hpk⟩
        obtain ⟨v, hv⟩ := ih h'
        exact ⟨v, by simpa [alookup, hk] using hv⟩

theorem search_keys_complete (keys : List String) (g : String → Option NoteRow)
    (h : ∀ k ∈ keys, ∃ r, g k = some r) :
    (keys.filterMap (fun k => (g k).map (fun r => (k, r)))).map Prod.fst = keys := by
  induction keys with
  | nil => rfl
  | cons k ks ih =>
      obtain ⟨r, hr⟩ := h k (by simp)
      rw [List.filterMap_cons]
      simp only [hr, Option.map_some', List.map_cons]
      rw [ih (fun k' hk' => h k' (by simp [hk']))]

/-- C10 (implicit): the semantic branch of `search_notes` truncates to
the 10 highest-ranked notes: at most 10 notes are returned, each is the
stored note of its key, and over an orphan-free store the returned keys
are exactly the top-10 ranked keys in rank order. -/
theorem search_notes_top10 (s : KBState) (q : List ℚ) :
    (search_notes_semantic s q).length ≤ 10 ∧
      (∀ p ∈ search_notes_semantic s q, alookup s.notes p.1 = some p.2) ∧
      (orphanFree s →
        (search_notes_semantic s q).map Prod.fst =
          ((rank q s.embeddings).map Prod.fst).take 10) := by
  refine ⟨?_, ?_, ?_⟩
  · calc (search_notes_semantic s q).length
        ≤ (((rank q s.embeddings).take 10).map Prod.fst).length :=
          List.length_filterMap_le _ _
      _ ≤ 10 := by
          rw [List.length_map]
          exact List.length_take_le _ _
  · intro p hp
    obtain ⟨k, hk, heq⟩ := List.mem_filterMap.mp hp
    obtain ⟨r, hr, heq2⟩ := Option.map_eq_some'.mp heq
    cases heq2
    exact hr
  · intro hof
    rw [show search_notes_semantic s q =
        (((rank q s.embeddings).take 10).map Prod.fst).filterMap
          (fun k => (alookup s.notes k).map (fun r => (k, r))) from rfl]
    rw [search_keys_complete]
    · rw [List.map_take]
    · intro k hk
      obtain ⟨p, hp, hpk⟩ := List.mem_map.mp hk
      have hp2 : p ∈ rank q s.embeddings := List.mem_of_mem_take hp
      have hp3 : p ∈ scoredCandidates q s.embeddings :=
        (rank_perm_scored q s.embeddings).mem_iff.mp hp2
      obtain ⟨kv, hkv, hkveq⟩ := List.mem_map.mp hp3
      have hkmem : k ∈ s.embeddings.map Prod.fst :=
        List.mem_map.mpr ⟨kv, hkv, by rw [← hpk, ← hkveq]⟩
      obtain ⟨v, hv⟩ := alookup_isSome_of_mem_fst hkmem
      cases hnotes : alookup s.notes k with
      | none =>
          have := hof k hnotes
          rw [this] at hv
          cases hv
      | some r => exact ⟨r, rfl⟩

theorem search_notes_top10_witness :
    orphanFree (⟨[("a", ⟨"x", [], "t0", "t0"⟩)], [("a", [1])]⟩ : KBState) ∧
      (search_notes_semantic
          (⟨[("a", ⟨"x", [], "t0", "t0"⟩)], [("a", [1])]⟩ : KBState) [1]).map Prod.fst =
        ((rank [1] [("a", [1])]).map Prod.fst).take 10 := by
  have hof : orphanFree (⟨[("a", ⟨"x", [], "t0", "t0"⟩)], [("a", [1])]⟩ : KBState) := by
    intro k hk
    by_cases ha : "a" = k
    · simp [alookup, ha] at hk
    · simp [alookup, ha]
  exact ⟨hof,
    (search_notes_top10 ⟨[("a", ⟨"x", [], "t0", "t0"⟩)], [("a", [1])]⟩ [1]).2.2 hof⟩

/-! ## Centroid-collection lemmas and the centroid claim -/

theorem optAppend_nil {γ : Type} (o : Option (List γ)) : optAppend o [] = o := by
  cases o with
  | none => rfl
  | some vs => simp [optAppend]

theorem optAppend_append {γ : Type} (o : Option (List γ)) (xs ys : List γ) :
    optAppend o (xs ++ ys) = optAppend (optAppend o xs) ys := by
  cases o with
  | none =>
      cases xs with
      | nil => simp [optAppend]
      | cons x xs' =>
          cases ys with
          | nil => simp [optAppend]
          | cons y ys' => simp [optAppend]
  | some vs =>
      cases ys with
      | nil => simp [optAppend]
      | cons y ys' => simp [optAppend]

theorem alookup_addTagVec_self (acc : List (String × List (List ℝ))) (tag : String)
    (v : List ℝ) :
    alookup (addTagVec acc tag v) tag = optAppend (alookup acc tag) [v] := by
  induction acc with
  | nil => simp [addTagVec, alookup, optAppend]
  | cons tv rest ih =>
      obtain ⟨t, vs⟩ := tv
      by_cases ht : t = tag
      · simp [addTagVec, ht, alookup, optAppend]
      · simp only [addTagVec, if_neg ht, alookup]
        exact ih

theorem alookup_addTagVec_ne (acc : List (String × List (List ℝ))) (tag : String)
    (v : List ℝ) (key : String) (h : key ≠ tag) :
    alookup (addTagVec acc tag v) key = alookup acc key := by
  induction acc with
  | nil =>
      simp only [addTagVec, alookup]
      rw [if_neg (Ne.symm h)]
  | cons tv rest ih =>
      obtain ⟨t, vs⟩ := tv
      by_cases ht : t = tag
      · subst ht
        simp only [addTagVec, if_pos rfl, alookup]
        rw [if_neg (Ne.symm h), if_neg (Ne.symm h)]
      · simp only [addTagVec, if_neg ht, alookup]
        by_cases hk : t = key
        · rw [if_pos hk, if_pos hk]
        · rw [if_neg hk, if_neg hk, ih]

theorem collectRowTags_alookup {skip : List String} {tag : String} (htag : tag ∉ skip)
    (vec : List ℝ) :
    ∀ (ts : List String) (acc : List (String × List (List ℝ))),
      alookup (collectRowTags skip vec ts acc) tag =
        optAppend (alookup acc tag)
          ((ts.filter (fun t => decide (t = tag))).map (fun _ => vec)) := by
  intro ts
  induction ts with
  | nil => exact fun acc => (optAppend_nil _).symm
  | cons t ts ih =>
      intro acc
      by_cases hs : t ∈ skip
      · have hne : ¬t = tag := fun h => htag (h ▸ hs)
        rw [show collectRowTags skip vec (t :: ts) acc =
            collectRowTags skip vec ts acc from by simp [collectRowTags, hs]]
        rw [ih acc, List.filter_cons, if_neg (by simp [hne])]
      · rw [show collectRowTags skip vec (t :: ts) acc =
            collectRowTags skip vec ts (addTagVec acc t vec) from by
          simp [collectRowTags, hs]]
        by_cases ht : t = tag
        · subst ht
          rw [ih _, alookup_addTagVec_self, List.filter_cons, if_pos (by simp)]
          rw [show ((t :: ts.filter (fun t' => decide (t' = t))).map
              (fun _ => vec)) = [vec] ++ (ts.filter (fun t' => decide (t' = t))).map
              (fun _ => vec) from rfl]
          rw [optAppend_append]
        · rw [ih _, alookup_addTagVec_ne _ _ _ _ (fun h => ht h.symm),
            List.filter_cons, if_neg (by simp [ht])]

theorem collectRowTags_alookup_skip {skip : List String} {tag : String}
    (htag : tag ∈ skip) (vec : List ℝ) :
    ∀ (ts : List String) (acc : List (String × List (List ℝ))),
      alookup (collectRowTags skip vec ts acc) tag = alookup acc tag := by
  intro ts
  induction ts with
  | nil => exact fun _ => rfl
  | cons t ts ih =>
      intro acc
      by_cases hs : t ∈ skip
      · rw [show collectRowTags skip vec (t :: ts) acc =
            collectRowTags skip vec ts acc from by simp [collectRowTags, hs]]
        exact ih acc
      · have hne : tag ≠ t := fun h => hs (h ▸ htag)
        rw [show collectRowTags skip vec (t :: ts) acc =
            collectRowTags skip vec ts (addTagVec acc t vec) from by
          simp [collectRowTags, hs]]
        rw [ih _, alookup_addTagVec_ne _ _ _ _ hne]

theorem tagVecs_alookup {skip : List String} {tag : String} (htag : tag ∉ skip) :
    ∀ (rows : List (List String × List ℝ)) (acc : List (String × List (List ℝ))),
      alookup (tagVecs skip rows acc) tag =
        optAppend (alookup acc tag) (memberOcc tag rows) := by
  intro rows
  induction rows with
  | nil => exact fun acc => (optAppend_nil _).symm
  | cons r rest ih =>
      intro acc
      rw [show tagVecs skip (r :: rest) acc =
          tagVecs skip rest (collectRowTags skip r.2 r.1 acc) from rfl]
      rw [ih _, collectRowTags_alookup htag r.2 r.1 acc]
      rw [show memberOcc tag (r :: rest) =
          ((r.1.filter (fun t => decide (t = tag))).map (fun _ => r.2)) ++
            memberOcc tag rest from rfl]
      rw [optAppend_append]

theorem tagVecs_alookup_skip {skip : List String} {tag : String} (htag : tag ∈ skip) :
    ∀ (rows : List (List String × List ℝ)) (acc : List (String × List (List ℝ))),
      alookup (tagVecs skip rows acc) tag = alookup acc tag := by
  intro rows
  induction rows with
  | nil => exact fun _ => rfl
  | cons r rest ih =>
      intro acc
      rw [show tagVecs skip (r :: rest) acc =
          tagVecs skip rest (collectRowTags skip r.2 r.1 acc) from rfl]
      rw [ih _, collectRowTags_alookup_skip htag r.2 r.1 acc]

theorem alookup_map_value {β γ : Type} (l : List (String × β)) (g : β → γ)
    (key : String) :
    alookup (l.map (fun tv => (tv.1, g tv.2))) key = (alookup l key).map g := by
  induction l with
  | nil => rfl
  | cons tv rest ih =>
      obtain ⟨t, v⟩ := tv
      by_cases ht : t = key
      · simp [alookup, ht]
      · simp only [List.map_cons, alookup]
        rw [if_neg ht, if_neg ht, ih]

theorem filter_eq_singleton_of_nodup {l : List String} (h : l.Nodup) (tag : String) :
    l.filter (fun t => decide (t = tag)) = if tag ∈ l then [tag] else [] := by
  induction l with
  | nil => rfl
  | cons x xs ih =>
      rw [List.nodup_cons] at h
      rw [List.filter_cons]
      by_cases hx : x = tag
      · subst hx
        rw [if_pos (by simp)]
        have hxs : x ∉ xs := h.1
        rw [ih h.2, if_neg hxs, if_pos (by simp)]
      · rw [if_neg (by simp [hx])]
        rw [ih h.2]
        by_cases hmem : tag ∈ xs
        · rw [if_pos hmem, if_pos (by simp [hmem])]
        · rw [if_neg hmem, if_neg (by
            intro hc
            rcases List.mem_cons.mp hc with h | h
            · exact hx h.symm
            · exact hmem h)]

theorem memberOcc_eq_memberVecs {tag : String} {rows : List (List String × List ℝ)}
    (hrows : ∀ r ∈ rows, r.1.Nodup) : memberOcc tag rows = memberVecs tag rows := by
  induction rows with
  | nil => rfl
  | cons r rest ih =>
      have hr : r.1.Nodup := hrows r (by simp)
      have ihr := ih (fun r' hr' => hrows r' (by simp [hr']))
      rw [show memberOcc tag (r :: rest) =
          ((r.1.filter (fun t => decide (t = tag))).map (fun _ => r.2)) ++
            memberOcc tag rest from rfl]
      rw [filter_eq_singleton_of_nodup hr tag, ihr]
      unfold memberVecs
      rw [List.filter_cons]
      by_cases hmem : tag ∈ r.1
      · rw [if_pos hmem, if_pos (by simp [hmem]), List.map_cons]
        rfl
      · rw [if_neg hmem, if_neg (by simp [hmem])]
        rfl

/-- C3: the centroid computation outputs exactly the tags that are not
in the skip set and have at least one member vector among the joined
rows; each such tag maps to the L2-normalised componentwise mean of its
member vectors, except that a mean whose norm is not positive is emitted
un-normalised; a tag in the skip set never appears, regardless of
membership.  The hypothesis that each row's tag list is duplicate free
reflects the claim's view of the input as a mapping from tags to
member-vector sets (a row listing a tag twice would weight its vector
twice in the code's mean). -/
theorem compute_tag_centroids_spec (rows : List (List String × List ℝ))
    (skip : List String) (tag : String) (hrows : ∀ r ∈ rows, r.1.Nodup) :
    ((∃ c, alookup (compute_tag_centroids rows skip) tag = some c) ↔
        tag ∉ skip ∧ memberVecs tag rows ≠ []) ∧
      (∀ c, alookup (compute_tag_centroids rows skip) tag = some c →
        c = normalizeIfPos (meanVec (memberVecs tag rows))) ∧
      (tag ∈ skip → alookup (compute_tag_centroids rows skip) tag = none) ∧
      (l2norm (meanVec (memberVecs tag rows)) = 0 →
        normalizeIfPos (meanVec (memberVecs tag rows)) =
          meanVec (memberVecs tag rows)) := by
  have hzero : l2norm (meanVec (memberVecs tag rows)) = 0 →
      normalizeIfPos (meanVec (memberVecs tag rows)) = meanVec (memberVecs tag rows) := by
    intro h
    simp [normalizeIfPos, h]
  have hkey : alookup (compute_tag_centroids rows skip) tag =
      (alookup (tagVecs skip rows []) tag).map (fun vs => normalizeIfPos (meanVec vs)) := by
    unfold compute_tag_centroids
    exact alookup_map_value (tagVecs skip rows [])
      (fun vs => normalizeIfPos (meanVec vs)) tag
  by_cases hskip : tag ∈ skip
  · rw [hkey, tagVecs_alookup_skip hskip rows []]
    simp only [alookup, Option.map_none']
    refine ⟨?_, ?_, fun _ => by simp, hzero⟩
    · constructor
      · rintro ⟨c, hc⟩
        cases hc
      · rintro ⟨hns, _⟩
        exact absurd hskip hns
    · intro c hc
      cases hc
  · have h7 : alookup (tagVecs skip rows []) tag = optAppend none (memberOcc tag rows) :=
      tagVecs_alookup hskip rows []
    have hocc : memberOcc tag rows = memberVecs tag rows := memberOcc_eq_memberVecs hrows
    rw [hkey, h7, hocc]
    cases hmv : memberVecs tag rows with
    | nil =>
        simp only [optAppend, Option.map_none']
        refine ⟨?_, ?_, fun hc => absurd hc hskip, ?_⟩
        · constructor
          · rintro ⟨c, hc⟩
            cases hc
          · rintro ⟨_, hne⟩
            exact absurd rfl hne
        · intro c hc
          cases hc
        · intro h
          simp [normalizeIfPos, h]
    | cons v vs =>
        simp only [optAppend, Option.map_some']
        refine ⟨?_, ?_, fun hc => absurd hc hskip, ?_⟩
        · constructor
          · intro _
            exact ⟨hskip, by simp⟩
          · intro _
            exact ⟨normalizeIfPos (meanVec (v :: vs)), rfl⟩
        · intro c hc
          injection hc with hc'
          exact hc'.symm
        · intro h
          simp [normalizeIfPos, h]

theorem compute_tag_centroids_spec_witness :
    (∀ r ∈ ([(["x"], [1, 0]), (["skipme"], [1])] : List (List String × List ℝ)),
        r.1.Nodup) ∧
      alookup (compute_tag_centroids [(["x"], [1, 0]), (["skipme"], [1])] ["skipme"])
        "skipme" = none ∧
      ∃ c, alookup (compute_tag_centroids [(["x"], [1, 0]), (["skipme"], [1])]
        ["skipme"]) "x" = some c := by
  have hrows : ∀ r ∈ ([(["x"], [1, 0]), (["skipme"], [1])] : List (List String × List ℝ)),
      r.1.Nodup := by
    intro r hr
    rcases List.mem_cons.mp hr with rfl | hr'
    · simp
    · rcases List.mem_cons.mp hr' with rfl | hr''
      · simp
      · cases hr''
  refine ⟨hrows, ?_, ?_⟩
  · exact (compute_tag_centroids_spec [(["x"], [1, 0]), (["skipme"], [1])] ["skipme"]
      "skipme" hrows).2.2.1 (by simp)
  · exact (compute_tag_centroids_spec [(["x"], [1, 0]), (["skipme"], [1])] ["skipme"]
      "x" hrows).1.mpr ⟨by simp, by simp [memberVecs]⟩
